import Mathlib

/-!
# Verification of the READMeth EM deconvolution engine

A shallow embedding of `deconvolution_models/epistate_plus.py` (class
`READMeth`): a read-based EM algorithm estimating cell-type proportions
(`alpha`) from per-read methylation calls grouped into genomic windows.

Modelling conventions:
* Floating-point numbers are modelled by `ℚ`; all float arithmetic in the
  source (`+`, `-`, `*`, `/`, comparisons, `abs`, `mean` as sum/size) is exact
  field arithmetic here.  Division by zero yields `0` in `ℚ`; theorems carry
  hypotheses ruling the relevant denominators out.
* The transcendental functions `np.log` / `np.exp` (and, through them,
  `scipy.special.logsumexp`) are modelled by an abstract pair of functions
  `NumOps` threaded through every definition that uses them.  Theorems that
  depend on analytic facts about log/exp take exactly those facts as
  hypotheses; a concrete computable pair `wOps` satisfying all of them is
  provided for instantiation.
* `scipy.special.logsumexp` is embedded by its defining equation
  `log (∑ exp)`; the max-shifted evaluation scipy uses is equal to it in
  exact arithmetic.
* The three-valued call alphabet `METHYLATED / UNMETHYLATED / NOVAL` is
  imported by the source from the external `epiread_tools` package (not part
  of this repository); it is modelled from the spec as a three-constructor
  inductive type, which is all the source uses of it (equality tests).
* NumPy arrays become `Fin`-indexed functions (per window) and Python lists
  of per-window arrays become Lean lists; in-place NumPy mutation
  (`add_pseudocounts`) is modelled value-level: the function returns the
  transformed contents, and the engine's `Lt` is that transformed value.
* `np.random.uniform` in `init_alpha` is modelled by an explicit `rand`
  argument holding the drawn sample, so that the dependence of the
  computation on the random source is visible in the types.
-/

namespace READMeth

/-- The per-site call alphabet.  Modelled from the spec: the constants
`METHYLATED`, `UNMETHYLATED`, `NOVAL` are imported by the source from the
external `epiread_tools.naming_conventions` module; the spec fixes the
alphabet as {METHYLATED, UNMETHYLATED, NO_VALUE} and the source only ever
compares cells against these three constants. -/
inductive Call where
  | METHYLATED : Call
  | UNMETHYLATED : Call
  | NOVAL : Call
deriving DecidableEq, Repr

/-- Abstract model of the floating-point `np.log` / `np.exp` pair. -/
structure NumOps where
  log : ℚ → ℚ
  exp : ℚ → ℚ

/-- `scipy.special.logsumexp` over a `Fin`-indexed family, by its defining
equation `log (∑ i, exp (v i))`. -/
def logsumexp (ops : NumOps) {n : ℕ} (v : Fin n → ℚ) : ℚ :=
  ops.log (∑ i, ops.exp (v i))

/-- `logsumexp` of a two-element stack, as used with `axis=0` over a
two-element list in `calc_mu` and `log_likelihood`. -/
def logsumexp2 (ops : NumOps) (a b : ℚ) : ℚ :=
  ops.log (ops.exp a + ops.exp b)

/-- `np.nan_to_num`.  On finite floats it is the identity; every value of the
`ℚ` model is finite, so it is embedded as the identity map.  (In the source it
guards against `±inf`/`nan` produced by `np.log` at 0 or at negative inputs;
the abstract `ops.log` is total on `ℚ`.) -/
def nan_to_num (q : ℚ) : ℚ := q

/-- One window of input data: `C` reads by `M` CpG sites of calls (`x`), the
per-cell-type epistate-H prior `lam` (a row of `lambda_t`), and the per-site
methylation probabilities under the high and low epistates (`theta_high`,
`theta_low` rows, per-CpG vectors). -/
structure WindowData (T : ℕ) where
  C : ℕ
  M : ℕ
  x : Fin C → Fin M → Call
  lam : Fin T → ℚ
  thetaH : Fin M → ℚ
  thetaL : Fin M → ℚ

/-- `(~(x == NOVAL)).any()` for one window: the window has at least one
informative (non-`NOVAL`) cell.  Line 24 of the source (`x_c_v`). -/
def x_c_v {T : ℕ} (w : WindowData T) : Bool :=
  decide (∃ r : Fin w.C, ∃ m : Fin w.M, w.x r m ≠ Call.NOVAL)

/-- The methylation indicator `x_c_m = (x == METHYLATED)` cast to a number
(`astype(int)`, then used in float matmul).  Lines 35 and 83. -/
def x_c_m {T : ℕ} (w : WindowData T) (r : Fin w.C) (m : Fin w.M) : ℚ :=
  if w.x r m = Call.METHYLATED then 1 else 0

/-- The unmethylation indicator `x_c_u = (x == UNMETHYLATED)` as a number.
Lines 36 and 84. -/
def x_c_u {T : ℕ} (w : WindowData T) (r : Fin w.C) (m : Fin w.M) : ℚ :=
  if w.x r m = Call.UNMETHYLATED then 1 else 0

/-- The class constant `pseudocount = 1e-10` (line 12). -/
def pseudocount : ℚ := 1 / 10000000000

/-- First in-place pass of `add_pseudocounts`: `arr[arr==1] -= pseudocount`
(line 58), as the value transformation it performs on each entry. -/
def add_pseudocounts_step1 (v : ℚ) : ℚ :=
  if v = 1 then v - pseudocount else v

/-- Second in-place pass of `add_pseudocounts`: `arr[arr==0] += pseudocount`
(line 59), applied to the entries left by the first pass. -/
def add_pseudocounts_step2 (v : ℚ) : ℚ :=
  if v = 0 then v + pseudocount else v

/-- `add_pseudocounts` (lines 51-60) as the per-entry transformation the two
sequential masked in-place assignments perform.  The source mutates the
caller's arrays and returns the same objects; value-level, the returned
contents are this map of the input contents. -/
def add_pseudocounts (v : ℚ) : ℚ :=
  add_pseudocounts_step2 (add_pseudocounts_step1 v)

/-- `add_pseudocounts` applied to one window's `lam` row (the loop over
`list_of_arrays` at line 57 visits each window's array). -/
def add_pseudocounts_window {T : ℕ} (w : WindowData T) : WindowData T :=
  { w with lam := fun t => add_pseudocounts (w.lam t) }

/-- The engine state established by `__init__` (after `add_pseudocounts` and
`filter_no_coverage`): the retained windows with corrected `lam`, plus the
iteration budget and convergence threshold. -/
structure Engine (T : ℕ) where
  windows : List (WindowData T)
  num_iterations : ℕ
  convergence_criteria : ℚ

/-- Constructor setup, lines 23-28: store the windows, apply
`add_pseudocounts` to `lambda_t`, then `filter_no_coverage` drops every
window whose mask `x_c_v` (computed from the original `x`) is false from
`x`, `Lt`, `thetaH` and `thetaL` alike.  The four parallel arrays are bundled
per window, so the common boolean mask becomes one list filter. -/
def mkEngine (T : ℕ) (raw : List (WindowData T))
    (num_iterations : ℕ) (convergence_criteria : ℚ) : Engine T :=
  { windows := (raw.map add_pseudocounts_window).filter (fun w => x_c_v w)
    num_iterations := num_iterations
    convergence_criteria := convergence_criteria }

/-- `self.c` (lines 38-39): total read count over the retained windows. -/
def Engine.c {T : ℕ} (E : Engine T) : ℕ :=
  (E.windows.map (fun w => w.C)).sum

/-- `self.m` (lines 38-39): total CpG site count over the retained windows. -/
def Engine.m {T : ℕ} (E : Engine T) : ℕ :=
  (E.windows.map (fun w => w.M)).sum

/-- Per-window `mu` vectors (a Python list of length-`C` arrays). -/
def Mu {T : ℕ} (E : Engine T) : Type :=
  (i : Fin E.windows.length) → Fin (E.windows.get i).C → ℚ

/-- Per-window responsibility matrices `z` (a Python list of `T×C` arrays). -/
def Z {T : ℕ} (E : Engine T) : Type :=
  (i : Fin E.windows.length) → Fin T → Fin (E.windows.get i).C → ℚ

/-- `calc_x_given_prob` (lines 75-88) for one window and one per-site
probability vector `prob`: the two integer-indicator matmuls with
`nan_to_num(log prob)` and `nan_to_num(log (1-prob))`, giving a length-`C`
vector of per-read log-likelihoods. -/
def calc_x_given_prob {T : ℕ} (ops : NumOps) (w : WindowData T)
    (prob : Fin w.M → ℚ) (r : Fin w.C) : ℚ :=
  (∑ m, x_c_m w r m * nan_to_num (ops.log (prob m))) +
    (∑ m, x_c_u w r m * nan_to_num (ops.log (1 - prob m)))

/-- `self.log_x_given_H` (line 41): `calc_x_given_prob` at `thetaH`. -/
def log_x_given_H {T : ℕ} (ops : NumOps) (w : WindowData T)
    (r : Fin w.C) : ℚ :=
  calc_x_given_prob ops w w.thetaH r

/-- `self.log_x_given_L` (line 42): `calc_x_given_prob` at `thetaL`. -/
def log_x_given_L {T : ℕ} (ops : NumOps) (w : WindowData T)
    (r : Fin w.C) : ℚ :=
  calc_x_given_prob ops w w.thetaL r

/-- `log_likelihood` (lines 62-73): per window, marginalize each read over
the epistate (inner two-element logsumexp, weights `lambda`/`1-lambda`) and
then over the cell type (outer logsumexp, weights `alpha`), and sum over all
reads and windows. -/
def log_likelihood {T : ℕ} (E : Engine T) (ops : NumOps)
    (alpha : Fin T → ℚ) : ℚ :=
  ∑ i : Fin E.windows.length,
    ∑ r : Fin (E.windows.get i).C,
      logsumexp ops (fun t =>
        ops.log (alpha t) +
          logsumexp2 ops
            (ops.log ((E.windows.get i).lam t) + log_x_given_H ops (E.windows.get i) r)
            (ops.log (1 - (E.windows.get i).lam t) + log_x_given_L ops (E.windows.get i) r))

/-- One window of `calc_z` (lines 100-110): the unnormalized responsibility
`mu[c]*lambda[t]*alpha[t] + (1-mu[c])*(1-lambda[t])*alpha[t]`, produced by
the three `np.tile` broadcasts. -/
def calc_z_num {T : ℕ} (w : WindowData T) (mu : Fin w.C → ℚ)
    (alpha : Fin T → ℚ) (t : Fin T) (c : Fin w.C) : ℚ :=
  mu c * w.lam t * alpha t + (1 - mu c) * (1 - w.lam t) * alpha t

/-- The column normalizer `np.sum(z_win, axis=0)` (line 108). -/
def calc_z_den {T : ℕ} (w : WindowData T) (mu : Fin w.C → ℚ)
    (alpha : Fin T → ℚ) (c : Fin w.C) : ℚ :=
  ∑ t, calc_z_num w mu alpha t c

/-- One window of `calc_z` after column normalization. -/
def calc_z_win {T : ℕ} (w : WindowData T) (mu : Fin w.C → ℚ)
    (alpha : Fin T → ℚ) (t : Fin T) (c : Fin w.C) : ℚ :=
  calc_z_num w mu alpha t c / calc_z_den w mu alpha c

/-- `calc_z` (lines 100-110) over all windows. -/
def calc_z {T : ℕ} (E : Engine T) (mu : Mu E) (alpha : Fin T → ℚ) : Z E :=
  fun i => calc_z_win (E.windows.get i) (mu i) alpha

/-- `log_high` of `calc_mu` (line 94) for one window:
`logsumexp_t (log lambda[t] + logP(x|H) + log z[t,c])`. -/
def calc_mu_log_high {T : ℕ} (ops : NumOps) (w : WindowData T)
    (z : Fin T → Fin w.C → ℚ) (c : Fin w.C) : ℚ :=
  logsumexp ops (fun t =>
    ops.log (w.lam t) + log_x_given_H ops w c + ops.log (z t c))

/-- `log_low` of `calc_mu` (line 95) for one window. -/
def calc_mu_log_low {T : ℕ} (ops : NumOps) (w : WindowData T)
    (z : Fin T → Fin w.C → ℚ) (c : Fin w.C) : ℚ :=
  logsumexp ops (fun t =>
    ops.log (1 - w.lam t) + log_x_given_L ops w c + ops.log (z t c))

/-- One window of `calc_mu` (lines 90-98):
`mu[c] = exp (log_high - logsumexp(log_high, log_low))`. -/
def calc_mu_win {T : ℕ} (ops : NumOps) (w : WindowData T)
    (z : Fin T → Fin w.C → ℚ) (c : Fin w.C) : ℚ :=
  ops.exp (calc_mu_log_high ops w z c -
    logsumexp2 ops (calc_mu_log_high ops w z c) (calc_mu_log_low ops w z c))

/-- `calc_mu` (lines 90-98) over all windows. -/
def calc_mu {T : ℕ} (E : Engine T) (ops : NumOps) (z : Z E) : Mu E :=
  fun i => calc_mu_win ops (E.windows.get i) (z i)

/-- `high` of `init_mu_no_log` (line 123) for one window:
`sum_t exp(logP(x|H)) * alpha[t] * lambda[t]`. -/
def init_mu_high {T : ℕ} (ops : NumOps) (w : WindowData T)
    (alpha : Fin T → ℚ) (c : Fin w.C) : ℚ :=
  ∑ t, ops.exp (log_x_given_H ops w c) * (alpha t * w.lam t)

/-- `low` of `init_mu_no_log` (line 124) for one window. -/
def init_mu_low {T : ℕ} (ops : NumOps) (w : WindowData T)
    (alpha : Fin T → ℚ) (c : Fin w.C) : ℚ :=
  ∑ t, ops.exp (log_x_given_L ops w c) * (alpha t * (1 - w.lam t))

/-- One window of `init_mu_no_log` (lines 118-127): `high / (high + low)`. -/
def init_mu_win {T : ℕ} (ops : NumOps) (w : WindowData T)
    (alpha : Fin T → ℚ) (c : Fin w.C) : ℚ :=
  init_mu_high ops w alpha c / (init_mu_high ops w alpha c + init_mu_low ops w alpha c)

/-- `init_mu_no_log` (lines 118-127) over all windows. -/
def init_mu_no_log {T : ℕ} (E : Engine T) (ops : NumOps)
    (alpha : Fin T → ℚ) : Mu E :=
  fun i => init_mu_win ops (E.windows.get i) alpha

/-- Row `t` of `np.hstack(z)` (line 135): all windows' reads concatenated
along the read axis. -/
def hstack {T : ℕ} (E : Engine T) (z : Z E) (t : Fin T) : List ℚ :=
  (List.ofFn (fun i : Fin E.windows.length =>
    List.ofFn (fun c : Fin (E.windows.get i).C => z i t c))).flatten

/-- The pre-normalization alpha of `maximization` (line 136):
`np.sum(all_z, axis=1) / self.c`. -/
def maximization_raw {T : ℕ} (E : Engine T) (z : Z E) (t : Fin T) : ℚ :=
  (hstack E z t).sum / (E.c : ℚ)

/-- `maximization` (lines 129-138): sum the hstacked responsibilities per
cell type, divide by the total read count, then renormalize to sum to 1. -/
def maximization {T : ℕ} (E : Engine T) (z : Z E) (t : Fin T) : ℚ :=
  maximization_raw E z t / ∑ s, maximization_raw E z s

/-- The relative change `np.mean(abs(new_alpha - alpha)) / np.mean(abs(alpha))`
of `test_convergence` (line 141), with `np.mean` as sum over size. -/
def alpha_diff {T : ℕ} (alpha new_alpha : Fin T → ℚ) : ℚ :=
  ((∑ t, |new_alpha t - alpha t|) / (T : ℚ)) / ((∑ t, |alpha t|) / (T : ℚ))

/-- `test_convergence` (lines 140-142): the relative change is strictly below
the configured threshold. -/
def test_convergence {T : ℕ} (E : Engine T) (alpha new_alpha : Fin T → ℚ) : Prop :=
  alpha_diff alpha new_alpha < E.convergence_criteria

instance {T : ℕ} (E : Engine T) (a b : Fin T → ℚ) :
    Decidable (test_convergence E a b) :=
  inferInstanceAs (Decidable (_ < _))

/-- `init_alpha` (lines 112-116): when no alpha was supplied, normalize the
uniform sample `rand` drawn by `np.random.uniform(size=t)`; when the caller
supplied one, keep it. -/
def init_alpha {T : ℕ} (rand : Fin T → ℚ) : Option (Fin T → ℚ) → (Fin T → ℚ)
  | none => fun t => rand t / ∑ s, rand s
  | some a => a

/-- The `for i in range(num_iterations)` loop of `em` (lines 153-163), by
recursion on the remaining iteration count.  Each pass appends the diagnostic
log-likelihood, computes `z`, the candidate `new_alpha` and the next `mu`;
at a non-zero index where `test_convergence` holds it breaks — returning the
alpha entering the iteration, since the `else` branch that would commit the
candidate is skipped by the break — and otherwise commits the candidate and
continues.  On fuel exhaustion it returns the current alpha and the last
executed index (`i - 1`, which also covers `num_iterations = 0`, where the
`i = 0` initialized before the loop is returned). -/
def emLoop {T : ℕ} (E : Engine T) (ops : NumOps) :
    (alpha : Fin T → ℚ) → Mu E → List ℚ → ℕ → ℕ → (Fin T → ℚ) × ℕ
  | alpha, _, _, i, 0 => (alpha, i - 1)
  | alpha, mu, ll, i, fuel + 1 =>
    let ll' := ll ++ [log_likelihood E ops alpha]
    let z := calc_z E mu alpha
    let new_alpha := maximization E z
    let mu' := calc_mu E ops z
    if i ≠ 0 ∧ test_convergence E alpha new_alpha then (alpha, i)
    else emLoop E ops new_alpha mu' ll' (i + 1) fuel

/-- `em` (lines 144-164): initialize alpha (from `rand` when none is
supplied), initialize mu via `init_mu_no_log`, then run the iteration loop;
returns the final alpha and the stopping iteration index. -/
def em {T : ℕ} (E : Engine T) (ops : NumOps) (rand : Fin T → ℚ)
    (alpha0 : Option (Fin T → ℚ)) : (Fin T → ℚ) × ℕ :=
  let alpha := init_alpha rand alpha0
  let mu := init_mu_no_log E ops alpha
  emLoop E ops alpha mu [] 0 E.num_iterations

/-! ## A concrete computable log/exp pair

`wExp` is a strictly monotone bijection from `ℚ` onto the positive rationals
and `wLog` is its inverse on the positives; the pair satisfies every analytic
hypothesis the theorems below place on `NumOps`, so it witnesses their
satisfiability on concrete inputs. -/

/-- A computable stand-in for `exp`: a strictly monotone bijection
`ℚ → {q : ℚ // 0 < q}` (piecewise `1/(1-x)` and `x+1`). -/
def wExp (x : ℚ) : ℚ :=
  if x < 0 then 1 / (1 - x) else x + 1

/-- A computable stand-in for `log`: the inverse of `wExp` on the positive
rationals (piecewise `1 - 1/y` and `y - 1`). -/
def wLog (y : ℚ) : ℚ :=
  if y < 1 then 1 - 1 / y else y - 1

/-- The witness operation pair. -/
def wOps : NumOps := ⟨wLog, wExp⟩

/-! ## Concrete instances for witnesses and counterexamples

In exact real arithmetic every `exp`/`log` pair the source applies cancels
multiplicatively: `calc_x_given_prob` takes logs of the rational θ values,
`init_mu_no_log` exponentiates them back, and `calc_mu` computes
`exp (log H - log (exp (log H) + exp (log L)))` where `H` and `L` are sums of
products of the rationals `lam`, `θ`-likelihoods and `z` — so a run of the
source on rational inputs produces exactly the rationals given by the
closed forms `mu = H/(H+L)` etc.  To evaluate such a run inside the `ℚ`
model, `cexOps` below implements an exact logarithm on the multiplicative
subgroup of `ℚ` generated by a fixed finite set of primes (every value whose
log/exp matters in the chosen run is supported on them): `cexLog` encodes the
prime-valuation vector of its argument into base-1000 digits of a rational,
and `cexExp` decodes digit-wise and re-multiplies.  On that subgroup
`cexLog (x*y) = cexLog x + cexLog y` and `cexExp (cexLog x) = x` hold
exactly (digit magnitudes in the run stay far below 500), so the embedded
run computes the same rationals as the source evaluated in exact real
arithmetic at the same input. -/

/-- Multiplicity of `p` in `n`, by structural recursion on a fuel bound
(`n` itself suffices since the multiplicity is at most `log2 n`). -/
def padicCountFuel : ℕ → ℕ → ℕ → ℕ
  | 0, _, _ => 0
  | fuel + 1, p, n => if n % p = 0 ∧ n ≠ 0 then 1 + padicCountFuel fuel p (n / p) else 0

/-- Multiplicity of `p` in `n`. -/
def padicCount (p n : ℕ) : ℕ := padicCountFuel n p n

/-- The `p`-adic valuation of a rational. -/
def valZ (p : ℕ) (x : ℚ) : ℤ :=
  (padicCount p x.num.natAbs : ℤ) - (padicCount p x.den : ℤ)

/-- The primes supporting every value whose log/exp identity matters in the
counterexample run. -/
def cexPrimes : List ℕ := [2, 3, 5, 7, 11, 13, 43, 79, 107]

/-- Base-1000 digit encoding of the valuation vector of `x` over a prime
list. -/
def cexLogGo : List ℕ → ℚ → ℚ
  | [], _ => 0
  | p :: ps, x => (valZ p x : ℚ) / 1000 + cexLogGo ps x / 1000

/-- The exact logarithm on the subgroup generated by `cexPrimes` (and `0` on
nonpositive arguments, where the source would produce non-finite floats). -/
def cexLog (x : ℚ) : ℚ := if x ≤ 0 then 0 else cexLogGo cexPrimes x

/-- Round to the nearest integer (digit decoding). -/
def cexRoundZ (q : ℚ) : ℤ := (q + 1/2).floor

/-- Digit-wise decoding of a valuation vector followed by
re-multiplication. -/
def cexExpGo : List ℕ → ℚ → ℚ
  | [], _ => 1
  | p :: ps, y =>
    let e := cexRoundZ (y * 1000)
    (p : ℚ) ^ e * cexExpGo ps (y * 1000 - (e : ℚ))

/-- The exact inverse of `cexLog` on the subgroup generated by
`cexPrimes`. -/
def cexExp (y : ℚ) : ℚ := cexExpGo cexPrimes y

/-- The operation pair of the counterexample run: an exact log/exp on the
values the run encounters. -/
def cexOps : NumOps := ⟨cexLog, cexExp⟩

/-- A concrete informative window: 2 reads over 2 CpG sites, with one
`NOVAL` call. -/
def wWinA : WindowData 2 where
  C := 2
  M := 2
  x := fun r m =>
    if (r : ℕ) = 0 then (if (m : ℕ) = 0 then Call.METHYLATED else Call.NOVAL)
    else (if (m : ℕ) = 0 then Call.UNMETHYLATED else Call.METHYLATED)
  lam := fun t => if (t : ℕ) = 0 then 3/4 else 1/4
  thetaH := fun _ => 1/2
  thetaL := fun _ => 1/3

/-- A concrete window with no informative call (all `NOVAL`): dropped by
`filter_no_coverage`. -/
def wWinB : WindowData 2 where
  C := 1
  M := 1
  x := fun _ _ => Call.NOVAL
  lam := fun _ => 1/2
  thetaH := fun _ => 1/2
  thetaL := fun _ => 1/3

/-- A concrete engine over 2 cell types built from one informative and one
uninformative window, budget 5 iterations, convergence threshold 10. -/
def wE : Engine 2 := mkEngine 2 [wWinA, wWinB] 5 10

/-- A concrete supplied alpha. -/
def wAlpha : Fin 2 → ℚ := fun _ => 1/2

/-- A concrete random sample (unused when alpha is supplied). -/
def wRand : Fin 2 → ℚ := fun t => if (t : ℕ) = 0 then 1 else 3

/-- Window index 0 of `wE` (the retained window). -/
def wI : Fin wE.windows.length := ⟨0, by with_unfolding_all decide⟩

/-- Read index 0 of the retained window of `wE`. -/
def wC0 : Fin (wE.windows.get wI).C := ⟨0, by with_unfolding_all decide⟩

/-- Site index 1 of `wWinA` (the `NOVAL` call of read 0). -/
def wM1 : Fin wWinA.M := ⟨1, by decide⟩

/-- Read index 0 of `wWinA`. -/
def wR0 : Fin wWinA.C := ⟨0, by decide⟩

/-- A concrete per-window `mu` for `wE`. -/
def wMu : Mu wE := fun _ _ => 1/2

/-- A concrete responsibility assignment for `wE`. -/
def wZ : Z wE := fun _ _ _ => 1/2

/-- The engine of the `em` convergence counterexample: one window, one fully
methylated read at a single CpG site, 2 cell types, `lambda = (1/2, 1/4)`,
`thetaH = 1/2`, `thetaL = 1/4`, iteration budget 5 and the deliberately huge
convergence threshold 10. -/
def cexWin : WindowData 2 where
  C := 1
  M := 1
  x := fun _ _ => Call.METHYLATED
  lam := fun t => if (t : ℕ) = 0 then 1/2 else 1/4
  thetaH := fun _ => 1/2
  thetaL := fun _ => 1/4

/-- The counterexample engine. -/
def cexE : Engine 2 := mkEngine 2 [cexWin] 5 10

/-- The supplied alpha of the counterexample run. -/
def cexAlpha0 : Fin 2 → ℚ := fun _ => 1/2

/-- The (unused) random sample of the counterexample run. -/
def cexRand : Fin 2 → ℚ := fun _ => 1

/-- The initial mu of the counterexample run
(`= P(x|H)·Σαλ / (P(x|H)·Σαλ + P(x|L)·Σα(1-λ)) = 6/11`). -/
def cexMu0 : Mu cexE := init_mu_no_log cexE cexOps cexAlpha0

/-- The alpha committed by iteration 0 of the counterexample run
(`= (22/43, 21/43)`). -/
def cexAlpha1 : Fin 2 → ℚ := maximization cexE (calc_z cexE cexMu0 cexAlpha0)

/-- The mu computed by iteration 0 of the counterexample run
(`= H/(H+L) = 130/237`). -/
def cexMu1 : Mu cexE := calc_mu cexE cexOps (calc_z cexE cexMu0 cexAlpha0)

/-- The candidate alpha computed by iteration 1 of the counterexample run —
the iteration at which the convergence test succeeds
(`= (316/603, 287/603)`). -/
def cexCand : Fin 2 → ℚ := maximization cexE (calc_z cexE cexMu1 cexAlpha1)

/-- Window index 0 of `cexE`. -/
def cexI : Fin cexE.windows.length := ⟨0, by with_unfolding_all decide⟩

/-- Read index 0 of the window of `cexE`. -/
def cexC0 : Fin (cexE.windows.get cexI).C := ⟨0, by with_unfolding_all decide⟩

/-! ## General lemmas about the embedded operations -/

/-- A list sum of a mapped list as a `Finset` sum over positions. -/
lemma list_sum_map_eq {α : Type} {M : Type} [AddCommMonoid M] (l : List α)
    (f : α → M) : (l.map f).sum = ∑ i : Fin l.length, f (l.get i) := by
  conv_lhs => rw [← List.ofFn_get l]
  rw [List.map_ofFn, List.sum_ofFn]
  rfl

/-- The hstacked row sum is the total responsibility mass of cell type `t`
over all windows and reads. -/
lemma hstack_sum {T : ℕ} (E : Engine T) (z : Z E) (t : Fin T) :
    (hstack E z t).sum = ∑ i, ∑ c, z i t c := by
  unfold hstack
  rw [List.sum_flatten, List.map_ofFn, List.sum_ofFn]
  simp [List.sum_ofFn]

/-- The unnormalized responsibility is positive when `mu` is a probability,
`lam` is strictly between 0 and 1, and `alpha` is positive. -/
lemma calc_z_num_pos {T : ℕ} (w : WindowData T) (mu : Fin w.C → ℚ)
    (alpha : Fin T → ℚ) (t : Fin T) (c : Fin w.C)
    (hmu0 : 0 ≤ mu c) (hmu1 : mu c ≤ 1)
    (hl0 : 0 < w.lam t) (hl1 : w.lam t < 1) (ha : 0 < alpha t) :
    0 < calc_z_num w mu alpha t c := by
  unfold calc_z_num
  rcases eq_or_lt_of_le hmu0 with h | h
  · rw [← h]
    have h2 : 0 < (1 - w.lam t) * alpha t := mul_pos (by linarith) ha
    nlinarith
  · have h1 : 0 < mu c * w.lam t * alpha t := mul_pos (mul_pos h hl0) ha
    have h2 : 0 ≤ (1 - mu c) * (1 - w.lam t) * alpha t :=
      mul_nonneg (mul_nonneg (by linarith) (by linarith)) ha.le
    linarith

/-- The column normalizer of `calc_z` is positive. -/
lemma calc_z_den_pos {T : ℕ} (hT : 0 < T) (w : WindowData T)
    (mu : Fin w.C → ℚ) (alpha : Fin T → ℚ) (c : Fin w.C)
    (hmu0 : 0 ≤ mu c) (hmu1 : mu c ≤ 1)
    (hl : ∀ t, 0 < w.lam t ∧ w.lam t < 1) (ha : ∀ t, 0 < alpha t) :
    0 < calc_z_den w mu alpha c := by
  have : Nonempty (Fin T) := ⟨⟨0, hT⟩⟩
  exact Finset.sum_pos
    (fun t _ => calc_z_num_pos w mu alpha t c hmu0 hmu1 (hl t).1 (hl t).2 (ha t))
    Finset.univ_nonempty

/-- Each normalized responsibility is positive under the same hypotheses. -/
lemma calc_z_win_pos {T : ℕ} (hT : 0 < T) (w : WindowData T)
    (mu : Fin w.C → ℚ) (alpha : Fin T → ℚ) (t : Fin T) (c : Fin w.C)
    (hmu0 : 0 ≤ mu c) (hmu1 : mu c ≤ 1)
    (hl : ∀ t, 0 < w.lam t ∧ w.lam t < 1) (ha : ∀ t, 0 < alpha t) :
    0 < calc_z_win w mu alpha t c :=
  div_pos (calc_z_num_pos w mu alpha t c hmu0 hmu1 (hl t).1 (hl t).2 (ha t))
    (calc_z_den_pos hT w mu alpha c hmu0 hmu1 hl ha)

/-- A column of a window's normalized responsibility matrix sums to 1. -/
lemma calc_z_win_col_sum {T : ℕ} (hT : 0 < T) (w : WindowData T)
    (mu : Fin w.C → ℚ) (alpha : Fin T → ℚ) (c : Fin w.C)
    (hmu0 : 0 ≤ mu c) (hmu1 : mu c ≤ 1)
    (hl : ∀ t, 0 < w.lam t ∧ w.lam t < 1) (ha : ∀ t, 0 < alpha t) :
    ∑ t, calc_z_win w mu alpha t c = 1 := by
  unfold calc_z_win
  rw [← Finset.sum_div]
  exact div_self (ne_of_gt (calc_z_den_pos hT w mu alpha c hmu0 hmu1 hl ha))

/-- `init_mu_no_log` produces values strictly inside `(0,1)`. -/
lemma init_mu_win_mem {T : ℕ} (hT : 0 < T) (ops : NumOps) (w : WindowData T)
    (alpha : Fin T → ℚ) (c : Fin w.C)
    (hexp_pos : ∀ x, 0 < ops.exp x)
    (hl : ∀ t, 0 < w.lam t ∧ w.lam t < 1) (ha : ∀ t, 0 < alpha t) :
    0 < init_mu_win ops w alpha c ∧ init_mu_win ops w alpha c < 1 := by
  have : Nonempty (Fin T) := ⟨⟨0, hT⟩⟩
  have hhigh : 0 < init_mu_high ops w alpha c :=
    Finset.sum_pos
      (fun t _ => mul_pos (hexp_pos _) (mul_pos (ha t) (hl t).1))
      Finset.univ_nonempty
  have hlow : 0 < init_mu_low ops w alpha c :=
    Finset.sum_pos
      (fun t _ => mul_pos (hexp_pos _) (mul_pos (ha t) (by linarith [(hl t).2])))
      Finset.univ_nonempty
  unfold init_mu_win
  constructor
  · exact div_pos hhigh (by linarith)
  · rw [div_lt_one (by linarith)]
    linarith

/-- `calc_mu` produces values strictly inside `(0,1)` when `exp` is positive
and strictly monotone with `exp 0 = 1`, `log` inverts `exp`, and `log` is
strictly monotone on positives. -/
lemma calc_mu_win_mem {T : ℕ} (ops : NumOps) (w : WindowData T)
    (z : Fin T → Fin w.C → ℚ) (c : Fin w.C)
    (hexp_pos : ∀ x, 0 < ops.exp x)
    (hexp_mono : StrictMono ops.exp) (hexp_zero : ops.exp 0 = 1)
    (hlogexp : ∀ x, ops.log (ops.exp x) = x)
    (hlog_mono : ∀ a b, 0 < a → a < b → ops.log a < ops.log b) :
    0 < calc_mu_win ops w z c ∧ calc_mu_win ops w z c < 1 := by
  refine ⟨hexp_pos _, ?_⟩
  unfold calc_mu_win logsumexp2
  have h1 : calc_mu_log_high ops w z c <
      ops.log (ops.exp (calc_mu_log_high ops w z c) +
        ops.exp (calc_mu_log_low ops w z c)) := by
    calc calc_mu_log_high ops w z c
        = ops.log (ops.exp (calc_mu_log_high ops w z c)) :=
          (hlogexp _).symm
      _ < _ :=
          hlog_mono _ _ (hexp_pos _) (by linarith [hexp_pos (calc_mu_log_low ops w z c)])
  have h2 := hexp_mono (show calc_mu_log_high ops w z c -
      ops.log (ops.exp (calc_mu_log_high ops w z c) +
        ops.exp (calc_mu_log_low ops w z c)) < 0 by linarith)
  rwa [hexp_zero] at h2

/-- The total read count is positive when there is a retained window and
every retained window has a read. -/
lemma c_pos {T : ℕ} (E : Engine T) (hW : 0 < E.windows.length)
    (hC : ∀ i : Fin E.windows.length, 0 < (E.windows.get i).C) :
    0 < E.c := by
  have : Nonempty (Fin E.windows.length) := ⟨⟨0, hW⟩⟩
  unfold Engine.c
  rw [list_sum_map_eq]
  exact Finset.sum_pos (fun i _ => hC i) Finset.univ_nonempty

/-- Each pre-normalization alpha entry is positive when every responsibility
is positive and some window with a read is retained. -/
lemma maximization_raw_pos {T : ℕ} (E : Engine T) (z : Z E) (t : Fin T)
    (hW : 0 < E.windows.length)
    (hC : ∀ i : Fin E.windows.length, 0 < (E.windows.get i).C)
    (hz : ∀ i tt c, 0 < z i tt c) :
    0 < maximization_raw E z t := by
  have hne : Nonempty (Fin E.windows.length) := ⟨⟨0, hW⟩⟩
  unfold maximization_raw
  rw [hstack_sum]
  refine div_pos ?_ (by exact_mod_cast c_pos E hW hC)
  refine Finset.sum_pos (fun i _ => ?_) Finset.univ_nonempty
  have : Nonempty (Fin (E.windows.get i).C) := ⟨⟨0, hC i⟩⟩
  exact Finset.sum_pos (fun c _ => hz i t c) Finset.univ_nonempty

/-- The renormalized maximization output sums to 1 whenever the
pre-normalization sum is nonzero. -/
lemma maximization_sum_one {T : ℕ} (E : Engine T) (z : Z E)
    (h : ∑ t, maximization_raw E z t ≠ 0) :
    ∑ t, maximization E z t = 1 := by
  unfold maximization
  rw [← Finset.sum_div]
  exact div_self h

/-- Each maximization output entry is positive under the hypotheses of
`maximization_raw_pos` (with at least one cell type). -/
lemma maximization_pos {T : ℕ} (hT : 0 < T) (E : Engine T) (z : Z E)
    (t : Fin T) (hW : 0 < E.windows.length)
    (hC : ∀ i : Fin E.windows.length, 0 < (E.windows.get i).C)
    (hz : ∀ i tt c, 0 < z i tt c) :
    0 < maximization E z t := by
  have : Nonempty (Fin T) := ⟨⟨0, hT⟩⟩
  unfold maximization
  refine div_pos (maximization_raw_pos E z t hW hC hz) ?_
  exact Finset.sum_pos (fun s _ => maximization_raw_pos E z s hW hC hz)
    Finset.univ_nonempty

/-- The relative-change expression with the two `mean` divisions by `T`
cancelled. -/
lemma alpha_diff_eq {T : ℕ} (hT : (T : ℚ) ≠ 0) (a n : Fin T → ℚ) :
    alpha_diff a n = (∑ t, |n t - a t|) / (∑ t, |a t|) := by
  unfold alpha_diff
  rw [div_div_div_comm, div_self hT, div_one]

/-- At iteration index 0 the loop body never tests convergence: it always
commits the candidate and continues. -/
lemma emLoop_zero_step {T : ℕ} (E : Engine T) (ops : NumOps)
    (alpha : Fin T → ℚ) (mu : Mu E) (ll : List ℚ) (fuel : ℕ) :
    emLoop E ops alpha mu ll 0 (fuel + 1) =
      emLoop E ops (maximization E (calc_z E mu alpha))
        (calc_mu E ops (calc_z E mu alpha))
        (ll ++ [log_likelihood E ops alpha]) 1 fuel := by
  simp [emLoop]

/-- At a nonzero iteration index where the convergence test passes on the
candidate, the loop returns the alpha that entered the iteration (the
candidate is not committed) together with that index. -/
lemma emLoop_break {T : ℕ} (E : Engine T) (ops : NumOps)
    (alpha : Fin T → ℚ) (mu : Mu E) (ll : List ℚ) (i fuel : ℕ) (hi : i ≠ 0)
    (h : test_convergence E alpha (maximization E (calc_z E mu alpha))) :
    emLoop E ops alpha mu ll i (fuel + 1) = (alpha, i) := by
  rw [emLoop]
  exact if_pos ⟨hi, h⟩

/-- At a nonzero iteration index where the convergence test fails on the
candidate, the loop commits the candidate and continues. -/
lemma emLoop_continue {T : ℕ} (E : Engine T) (ops : NumOps)
    (alpha : Fin T → ℚ) (mu : Mu E) (ll : List ℚ) (i fuel : ℕ)
    (h : ¬ (i ≠ 0 ∧ test_convergence E alpha (maximization E (calc_z E mu alpha)))) :
    emLoop E ops alpha mu ll i (fuel + 1) =
      emLoop E ops (maximization E (calc_z E mu alpha))
        (calc_mu E ops (calc_z E mu alpha))
        (ll ++ [log_likelihood E ops alpha]) (i + 1) fuel := by
  rw [emLoop]
  exact if_neg h

/-! ## Properties of the witness operation pair -/

/-- `wExp` is positive everywhere. -/
lemma wExp_pos (x : ℚ) : 0 < wExp x := by
  unfold wExp
  split
  · next h => exact div_pos one_pos (by linarith)
  · next h => linarith [not_lt.1 h]

/-- `wExp` is strictly monotone. -/
lemma wExp_strictMono : StrictMono wExp := by
  intro a b hab
  unfold wExp
  rcases lt_or_le a 0 with ha | ha
  · rcases lt_or_le b 0 with hb | hb
    · rw [if_pos ha, if_pos hb]
      rw [div_lt_div_iff₀ (by linarith) (by linarith)]
      linarith
    · rw [if_pos ha, if_neg (not_lt.2 hb)]
      have h1 : 1 / (1 - a) < 1 := by
        rw [div_lt_one (by linarith)]
        linarith
      linarith
  · rw [if_neg (not_lt.2 ha), if_neg (not_lt.2 (by linarith : (0:ℚ) ≤ b))]
    linarith

/-- `wExp 0 = 1`. -/
lemma wExp_zero : wExp 0 = 1 := by
  unfold wExp
  norm_num

/-- `wLog` inverts `wExp`. -/
lemma wLog_wExp (x : ℚ) : wLog (wExp x) = x := by
  unfold wExp wLog
  rcases lt_or_le x 0 with hx | hx
  · rw [if_pos hx]
    have h1 : 1 / (1 - x) < 1 := by
      rw [div_lt_one (by linarith)]
      linarith
    rw [if_pos h1, one_div_one_div]
    ring
  · rw [if_neg (not_lt.2 hx), if_neg (by push_neg; linarith)]
    ring

/-- `wLog` is strictly monotone on the positive rationals. -/
lemma wLog_mono (a b : ℚ) (ha : 0 < a) (hab : a < b) : wLog a < wLog b := by
  unfold wLog
  rcases lt_or_le a 1 with ha1 | ha1
  · rcases lt_or_le b 1 with hb1 | hb1
    · rw [if_pos ha1, if_pos hb1]
      have : 1 / b < 1 / a := by
        rw [div_lt_div_iff₀ (by linarith) ha]
        linarith
      linarith
    · rw [if_pos ha1, if_neg (not_lt.2 hb1)]
      have : 0 < 1 / a := div_pos one_pos ha
      have h2 : 1 < 1 / a := by
        rw [lt_div_iff₀ ha]
        linarith
      linarith
  · rw [if_neg (not_lt.2 ha1), if_neg (not_lt.2 (by linarith))]
    linarith

/-- When both the previous alpha and the candidate are probability
distributions (positive entries summing to 1), the relative change of
`test_convergence` is at most 2, so any threshold above 2 passes the test. -/
lemma test_convergence_of_distributions {T : ℕ} (hT : 0 < T) (E : Engine T)
    (a n : Fin T → ℚ) (ha : ∀ t, 0 < a t) (hasum : ∑ t, a t = 1)
    (hpos : ∀ t, 0 < n t) (hnsum : ∑ t, n t = 1)
    (hcc : 2 < E.convergence_criteria) : test_convergence E a n := by
  unfold test_convergence
  rw [alpha_diff_eq (Nat.cast_ne_zero.2 (by omega))]
  have habs : ∑ t, |a t| = 1 := by
    rw [← hasum]
    exact Finset.sum_congr rfl fun t _ => abs_of_pos (ha t)
  rw [habs, div_one]
  have hle : ∑ t, |n t - a t| ≤ 2 := by
    calc ∑ t, |n t - a t| ≤ ∑ t, (n t + a t) := by
          refine Finset.sum_le_sum fun t _ => ?_
          calc |n t - a t| ≤ |n t| + |a t| := abs_sub _ _
            _ = n t + a t := by rw [abs_of_pos (hpos t), abs_of_pos (ha t)]
      _ = 2 := by rw [Finset.sum_add_distrib, hnsum, hasum]; norm_num
  linarith

/-! ## Claim theorems -/

set_option maxRecDepth 1000000 in
/-- C1 (counterexample).  On the concrete engine `cexE` with supplied alpha
`(1/2, 1/2)`, evaluated with the exact operation pair `cexOps` (which agrees
with real log/exp on every value whose log/exp identity the run uses, so the
pinned intermediate values below are exactly what the source computes in
exact real arithmetic at this input: `mu0 = 6/11`, committed
`alpha1 = (22/43, 21/43)`, `mu1 = 130/237`), the convergence test succeeds at
iteration index 1, where the candidate produced by that iteration's
maximization step is `cexCand = (316/603, 287/603)`; yet `em` returns
`cexAlpha1 = (22/43, 21/43)` — the alpha committed by the previous
iteration — so the returned alpha is *not* the candidate from the final
(converged) iteration, refuting the claim as stated. -/
theorem em_discards_converged_candidate_cex :
    (cexMu0 cexI cexC0 = 6/11)
    ∧ (cexAlpha1 0 = 22/43 ∧ cexAlpha1 1 = 21/43)
    ∧ (cexMu1 cexI cexC0 = 130/237)
    ∧ (cexCand 0 = 316/603 ∧ cexCand 1 = 287/603)
    ∧ test_convergence cexE cexAlpha1 cexCand
    ∧ (em cexE cexOps cexRand (some cexAlpha0)).2 = 1
    ∧ (em cexE cexOps cexRand (some cexAlpha0)).1 = cexAlpha1
    ∧ cexAlpha1 ≠ cexCand
    ∧ (em cexE cexOps cexRand (some cexAlpha0)).1 ≠ cexCand := by
  with_unfolding_all decide

/-- C1 (amended).  When the convergence test succeeds at an iteration of
index `i ≥ 1`, the `em` loop `break`s without executing the `else` branch
that would commit the candidate: it returns the alpha that entered the
iteration (the previous iteration's commit) together with the index `i`, and
the candidate `new_alpha` of the converged iteration is discarded. -/
theorem em_returns_previous_alpha_on_convergence {T : ℕ} (E : Engine T)
    (ops : NumOps) (alpha : Fin T → ℚ) (mu : Mu E) (ll : List ℚ)
    (i fuel : ℕ) (hi : i ≠ 0)
    (h : test_convergence E alpha (maximization E (calc_z E mu alpha))) :
    emLoop E ops alpha mu ll i (fuel + 1) = (alpha, i) :=
  emLoop_break E ops alpha mu ll i fuel hi h

set_option maxRecDepth 1000000 in
/-- Witness for the amended C1 theorem at the counterexample run's converged
iteration. -/
theorem em_returns_previous_alpha_on_convergence_witness :
    emLoop cexE cexOps cexAlpha1 cexMu1 [] 1 4 = (cexAlpha1, 1) :=
  em_returns_previous_alpha_on_convergence cexE cexOps cexAlpha1 cexMu1 [] 1 3
    (by decide) (by with_unfolding_all decide)

/-- C2.  `alpha` sums to 1 after initialization — whether drawn (any sample
with nonzero total; `np.random.uniform` draws have positive total almost
surely) and normalized by `init_alpha`, or supplied by the caller as a
normalized vector and kept as-is — and after every maximization step (whose
final renormalization divides by the nonzero pre-normalization total). -/
theorem alpha_sums_to_one {T : ℕ} (E : Engine T) (rand : Fin T → ℚ)
    (alphaS : Fin T → ℚ) (z : Z E)
    (hrand : ∑ t, rand t ≠ 0) (hS : ∑ t, alphaS t = 1)
    (hraw : ∑ t, maximization_raw E z t ≠ 0) :
    (∑ t, init_alpha rand none t = 1)
    ∧ (∑ t, init_alpha rand (some alphaS) t = 1)
    ∧ (∑ t, maximization E z t = 1) := by
  refine ⟨?_, hS, maximization_sum_one E z hraw⟩
  simp only [init_alpha]
  rw [← Finset.sum_div]
  exact div_self hrand

/-- Witness for C2 on the concrete engine `wE`. -/
theorem alpha_sums_to_one_witness :
    (∑ t, init_alpha wRand none t = 1)
    ∧ (∑ t, init_alpha wRand (some wAlpha) t = 1)
    ∧ (∑ t, maximization wE wZ t = 1) :=
  alpha_sums_to_one wE wRand wAlpha wZ (by with_unfolding_all decide)
    (by with_unfolding_all decide) (by with_unfolding_all decide)

/-- C3.  For every window and every read column, the `T` responsibilities of
`calc_z` sum to 1, for any `mu` with entries in `[0,1]` and any positive
`alpha`, given the (pseudocount-corrected) per-window `lam` strictly inside
`(0,1)`. -/
theorem calc_z_columns_sum_to_one {T : ℕ} (hT : 0 < T) (E : Engine T)
    (mu : Mu E) (alpha : Fin T → ℚ)
    (hmu : ∀ i c, 0 ≤ mu i c ∧ mu i c ≤ 1)
    (halpha : ∀ t, 0 < alpha t)
    (hlam : ∀ (i : Fin E.windows.length) (t : Fin T),
      0 < (E.windows.get i).lam t ∧ (E.windows.get i).lam t < 1)
    (i : Fin E.windows.length) (c : Fin (E.windows.get i).C) :
    ∑ t, calc_z E mu alpha i t c = 1 :=
  calc_z_win_col_sum hT (E.windows.get i) (mu i) alpha c (hmu i c).1 (hmu i c).2
    (fun t => hlam i t) halpha

/-- Witness for C3 on the concrete engine `wE`. -/
theorem calc_z_columns_sum_to_one_witness :
    ∑ t, calc_z wE wMu wAlpha wI t wC0 = 1 :=
  calc_z_columns_sum_to_one (by decide) wE wMu wAlpha
    (by with_unfolding_all decide)
    (by with_unfolding_all decide)
    (by with_unfolding_all decide) wI wC0

/-- C5.  `maximization` concatenates the windows' responsibility matrices
along the read axis (`hstack`), sums over all reads per cell type, divides by
the total retained read count `c`, and renormalizes; when `c` and the total
mass are nonzero the division by `c` cancels in the renormalization, so each
output entry is that cell type's total responsibility mass over the grand
total, and the output sums to 1. -/
theorem maximization_characterization {T : ℕ} (E : Engine T) (z : Z E)
    (hc : (E.c : ℚ) ≠ 0) (htot : ∑ t, ∑ i, ∑ c, z i t c ≠ 0) :
    (∀ t, maximization E z t =
      (∑ i, ∑ c, z i t c) / (∑ s, ∑ i, ∑ c, z i s c))
    ∧ ∑ t, maximization E z t = 1 := by
  have hraw : ∀ t, maximization_raw E z t = (∑ i, ∑ c, z i t c) / (E.c : ℚ) := by
    intro t
    unfold maximization_raw
    rw [hstack_sum]
  have hrawsum : ∑ t, maximization_raw E z t
      = (∑ s, ∑ i, ∑ c, z i s c) / (E.c : ℚ) := by
    rw [Finset.sum_congr rfl (fun t _ => hraw t), ← Finset.sum_div]
  constructor
  · intro t
    unfold maximization
    rw [hraw, hrawsum, div_div_div_comm, div_self hc, div_one]
  · exact maximization_sum_one E z (by rw [hrawsum]; exact div_ne_zero htot hc)

/-- Witness for C5 on the concrete engine `wE`. -/
theorem maximization_characterization_witness :
    maximization wE wZ ⟨0, by decide⟩ =
      (∑ i, ∑ c, wZ i ⟨0, by decide⟩ c) / (∑ s, ∑ i, ∑ c, wZ i s c) :=
  (maximization_characterization wE wZ (by with_unfolding_all decide)
    (by with_unfolding_all decide)).1 ⟨0, by decide⟩

/-- C6.  For every window, `calc_x_given_prob` returns per read the Bernoulli
log-likelihood of its observed calls: the sum over CpG sites of
`methylated_indicator * log θ + unmethylated_indicator * log (1-θ)`, and a
site whose call is `NOVAL` (both indicators `0`) contributes exactly zero to
that sum. -/
theorem calc_x_given_prob_bernoulli {T : ℕ} (ops : NumOps) (w : WindowData T)
    (prob : Fin w.M → ℚ) (r : Fin w.C) :
    (calc_x_given_prob ops w prob r =
      ∑ m, (x_c_m w r m * ops.log (prob m) + x_c_u w r m * ops.log (1 - prob m)))
    ∧ (∀ m, w.x r m = Call.NOVAL →
      x_c_m w r m * ops.log (prob m) + x_c_u w r m * ops.log (1 - prob m) = 0) := by
  constructor
  · unfold calc_x_given_prob nan_to_num
    rw [← Finset.sum_add_distrib]
  · intro m hm
    unfold x_c_m x_c_u
    rw [if_neg (by rw [hm]; intro h; exact Call.noConfusion h),
      if_neg (by rw [hm]; intro h; exact Call.noConfusion h)]
    ring

/-- Witness for C6: the `NOVAL` site of read 0 of `wWinA` contributes zero
(for any operation pair; instantiated at `wOps`). -/
theorem calc_x_given_prob_bernoulli_witness :
    x_c_m wWinA wR0 wM1 * wOps.log (wWinA.thetaH wM1)
      + x_c_u wWinA wR0 wM1 * wOps.log (1 - wWinA.thetaH wM1) = 0 :=
  (calc_x_given_prob_bernoulli wOps wWinA wWinA.thetaH wR0).2 wM1 (by decide)

/-- C7.  Every window retained by the constructor has at least one
informative (non-`NOVAL`) call; every window value with no informative call
is absent from the retained list (hence from every array and derived
quantity, all of which are indexed by the retained list); the number of
retained windows is the number of informative raw windows; and the total
read count `c` is taken over exactly the informative raw windows. -/
theorem filter_no_coverage_drops_uninformative (T : ℕ)
    (raw : List (WindowData T)) (n : ℕ) (cc : ℚ) :
    (∀ w ∈ (mkEngine T raw n cc).windows, x_c_v w = true)
    ∧ (∀ w : WindowData T, x_c_v w = false → w ∉ (mkEngine T raw n cc).windows)
    ∧ ((mkEngine T raw n cc).windows.length
        = (raw.filter (fun w => x_c_v w)).length)
    ∧ ((mkEngine T raw n cc).c
        = ((raw.filter (fun w => x_c_v w)).map (fun w => w.C)).sum) := by
  have hmap : (mkEngine T raw n cc).windows
      = (raw.filter (fun w => x_c_v w)).map add_pseudocounts_window := by
    show (raw.map add_pseudocounts_window).filter (fun w => x_c_v w) = _
    rw [List.filter_map]
    rfl
  refine ⟨?_, ?_, ?_, ?_⟩
  · intro w hw
    have := (List.mem_filter.1 hw).2
    simpa using this
  · intro w hw hmem
    have := (List.mem_filter.1 hmem).2
    rw [hw] at this
    exact Bool.noConfusion this
  · rw [hmap, List.length_map]
  · show ((mkEngine T raw n cc).windows.map (fun w => w.C)).sum = _
    rw [hmap, List.map_map]
    rfl

/-- Witness for C7 at the concrete raw list `[wWinA, wWinB]`. -/
theorem filter_no_coverage_drops_uninformative_witness :
    wWinB ∉ (mkEngine 2 [wWinA, wWinB] 5 10).windows :=
  (filter_no_coverage_drops_uninformative 2 [wWinA, wWinB] 5 10).2.1 wWinB
    (by decide)

/-- C8.  `add_pseudocounts` changes exactly the entries equal to 1 (down by
`1e-10`) or 0 (up by `1e-10`), leaves every other entry unchanged, and maps
`[0,1]` into the open interval `(0,1)`; the engine's corrected `Lt` is, per
retained window, exactly this transformation of the caller's `lambda_t` row
(the in-place mutation and returned-object identity of the source is
modelled by this value identity). -/
theorem add_pseudocounts_frame :
    (∀ v : ℚ,
      (v = 1 → add_pseudocounts v = v - pseudocount)
      ∧ (v = 0 → add_pseudocounts v = v + pseudocount)
      ∧ (v ≠ 1 → v ≠ 0 → add_pseudocounts v = v)
      ∧ (0 ≤ v → v ≤ 1 → 0 < add_pseudocounts v ∧ add_pseudocounts v < 1))
    ∧ (∀ (T : ℕ) (raw : List (WindowData T)) (n : ℕ) (cc : ℚ)
        (w : WindowData T), w ∈ raw → x_c_v w = true →
        add_pseudocounts_window w ∈ (mkEngine T raw n cc).windows) := by
  constructor
  · intro v
    refine ⟨?_, ?_, ?_, ?_⟩
    · intro h
      subst h
      unfold add_pseudocounts add_pseudocounts_step1 add_pseudocounts_step2 pseudocount
      norm_num
    · intro h
      subst h
      unfold add_pseudocounts add_pseudocounts_step1 add_pseudocounts_step2 pseudocount
      norm_num
    · intro h1 h0
      unfold add_pseudocounts add_pseudocounts_step1 add_pseudocounts_step2
      rw [if_neg h1, if_neg h0]
    · intro h0 h1
      unfold add_pseudocounts add_pseudocounts_step1 add_pseudocounts_step2 pseudocount
      rcases eq_or_ne v 1 with rfl | hne1
      · norm_num
      · rcases eq_or_ne v 0 with rfl | hne0
        · norm_num
        · rw [if_neg hne1, if_neg hne0]
          exact ⟨h0.lt_of_ne (Ne.symm hne0), h1.lt_of_ne hne1⟩
  · intro T raw n cc w hw hv
    show add_pseudocounts_window w ∈
      (raw.map add_pseudocounts_window).filter (fun w => x_c_v w)
    refine List.mem_filter.2 ⟨List.mem_map_of_mem _ hw, ?_⟩
    simpa using hv

/-- Witness for C8: the corrected copy of `wWinA` is the engine's retained
window, and the boundary values move as specified. -/
theorem add_pseudocounts_frame_witness :
    add_pseudocounts_window wWinA ∈ (mkEngine 2 [wWinA, wWinB] 5 10).windows :=
  add_pseudocounts_frame.2 2 [wWinA, wWinB] 5 10 wWinA
    (by simp) (by decide)

/-- C9.  Both `init_mu_no_log` (used at initialization) and `calc_mu` (used
at every later iteration) produce `mu` values strictly inside `(0,1)`: the
former given positive `exp`, positive `alpha` and `lam` in `(0,1)`; the
latter additionally using that `exp` is strictly monotone with `exp 0 = 1`
and that `log` inverts `exp` and is strictly monotone on positives (the
per-epistate log-likelihoods are automatically finite in this exact model,
and the strictly positive responsibilities `z` enter through `log z`). -/
theorem mu_strictly_inside_unit_interval {T : ℕ} (hT : 0 < T) (E : Engine T)
    (ops : NumOps) (alpha : Fin T → ℚ) (z : Z E)
    (hexp_pos : ∀ x, 0 < ops.exp x)
    (hexp_mono : StrictMono ops.exp) (hexp_zero : ops.exp 0 = 1)
    (hlogexp : ∀ x, ops.log (ops.exp x) = x)
    (hlog_mono : ∀ a b, 0 < a → a < b → ops.log a < ops.log b)
    (halpha : ∀ t, 0 < alpha t)
    (hlam : ∀ (i : Fin E.windows.length) (t : Fin T),
      0 < (E.windows.get i).lam t ∧ (E.windows.get i).lam t < 1)
    (hz : ∀ i t c, 0 < z i t c) :
    (∀ i c, 0 < init_mu_no_log E ops alpha i c
      ∧ init_mu_no_log E ops alpha i c < 1)
    ∧ (∀ i c, 0 < calc_mu E ops z i c ∧ calc_mu E ops z i c < 1) := by
  constructor
  · intro i c
    exact init_mu_win_mem hT ops (E.windows.get i) alpha c hexp_pos
      (fun t => hlam i t) halpha
  · intro i c
    exact calc_mu_win_mem ops (E.windows.get i) (z i) c hexp_pos hexp_mono
      hexp_zero hlogexp hlog_mono

/-- Witness for C9 on the concrete engine `wE` with the concrete operation
pair `wOps`. -/
theorem mu_strictly_inside_unit_interval_witness :
    0 < calc_mu wE wOps wZ wI wC0 ∧ calc_mu wE wOps wZ wI wC0 < 1 :=
  (mu_strictly_inside_unit_interval (by decide) wE wOps wAlpha wZ
    wExp_pos wExp_strictMono wExp_zero wLog_wExp wLog_mono
    (by with_unfolding_all decide)
    (by with_unfolding_all decide)
    (by with_unfolding_all decide)).2 wI wC0

/-- C10.  With a supplied (non-`None`) alpha, `em` is independent of the
random source: two runs on the same engine and data with different random
samples return identical final alpha vectors and identical iteration counts
(randomness is consulted only by `init_alpha` when no alpha is supplied; the
rest of the computation is a pure function of the engine state). -/
theorem em_deterministic_with_supplied_alpha {T : ℕ} (E : Engine T)
    (ops : NumOps) (rand1 rand2 : Fin T → ℚ) (alpha0 : Fin T → ℚ) :
    em E ops rand1 (some alpha0) = em E ops rand2 (some alpha0) := rfl

/-- C4.  The convergence test is exactly "mean absolute elementwise change,
normalized by the mean absolute previous value, strictly below the
threshold"; at iteration index 0 the loop never tests, committing the
candidate unconditionally; and with a very large threshold (any value above
2, e.g. the 10 of `wE`) the run with a supplied positive alpha stops at
iteration index 1 — the first index at which the test is performed. -/
theorem em_convergence_policy {T : ℕ} (E : Engine T) (ops : NumOps)
    (rand : Fin T → ℚ) (alpha0 : Fin T → ℚ)
    (hT : 0 < T)
    (hW : 0 < E.windows.length)
    (hC : ∀ i : Fin E.windows.length, 0 < (E.windows.get i).C)
    (hlam : ∀ (i : Fin E.windows.length) (t : Fin T),
      0 < (E.windows.get i).lam t ∧ (E.windows.get i).lam t < 1)
    (halpha : ∀ t, 0 < alpha0 t)
    (hexp_pos : ∀ x, 0 < ops.exp x)
    (hexp_mono : StrictMono ops.exp) (hexp_zero : ops.exp 0 = 1)
    (hlogexp : ∀ x, ops.log (ops.exp x) = x)
    (hlog_mono : ∀ a b, 0 < a → a < b → ops.log a < ops.log b)
    (hn : 2 ≤ E.num_iterations) (hcc : 2 < E.convergence_criteria) :
    (∀ a n : Fin T → ℚ, test_convergence E a n ↔
      ((∑ t, |n t - a t|) / (T : ℚ)) / ((∑ t, |a t|) / (T : ℚ))
        < E.convergence_criteria)
    ∧ (∀ (a : Fin T → ℚ) (mu : Mu E) (ll : List ℚ) (fuel : ℕ),
        emLoop E ops a mu ll 0 (fuel + 1) =
          emLoop E ops (maximization E (calc_z E mu a))
            (calc_mu E ops (calc_z E mu a))
            (ll ++ [log_likelihood E ops a]) 1 fuel)
    ∧ (em E ops rand (some alpha0)).2 = 1 := by
  have hne : Nonempty (Fin T) := ⟨⟨0, hT⟩⟩
  refine ⟨fun a n => Iff.rfl,
    fun a mu ll fuel => emLoop_zero_step E ops a mu ll fuel, ?_⟩
  have hmu0 : ∀ i c, 0 ≤ init_mu_no_log E ops alpha0 i c
      ∧ init_mu_no_log E ops alpha0 i c ≤ 1 := by
    intro i c
    have h := init_mu_win_mem hT ops (E.windows.get i) alpha0 c hexp_pos
      (fun t => hlam i t) halpha
    exact ⟨h.1.le, h.2.le⟩
  have hz0 : ∀ i t c, 0 < calc_z E (init_mu_no_log E ops alpha0) alpha0 i t c :=
    fun i t c => calc_z_win_pos hT (E.windows.get i) _ alpha0 t c
      (hmu0 i c).1 (hmu0 i c).2 (fun t => hlam i t) halpha
  have hα1pos : ∀ t,
      0 < maximization E (calc_z E (init_mu_no_log E ops alpha0) alpha0) t :=
    fun t => maximization_pos hT E _ t hW hC hz0
  have hα1sum :
      ∑ t, maximization E (calc_z E (init_mu_no_log E ops alpha0) alpha0) t = 1 :=
    maximization_sum_one E _ (ne_of_gt (Finset.sum_pos
      (fun t _ => maximization_raw_pos E _ t hW hC hz0) Finset.univ_nonempty))
  have hmu1 : ∀ i c,
      0 < calc_mu E ops (calc_z E (init_mu_no_log E ops alpha0) alpha0) i c
      ∧ calc_mu E ops (calc_z E (init_mu_no_log E ops alpha0) alpha0) i c < 1 :=
    fun i c => calc_mu_win_mem ops (E.windows.get i) _ c hexp_pos hexp_mono
      hexp_zero hlogexp hlog_mono
  have hz1 : ∀ i t c,
      0 < calc_z E (calc_mu E ops (calc_z E (init_mu_no_log E ops alpha0) alpha0))
        (maximization E (calc_z E (init_mu_no_log E ops alpha0) alpha0)) i t c :=
    fun i t c => calc_z_win_pos hT (E.windows.get i) _ _ t c
      (hmu1 i c).1.le (hmu1 i c).2.le (fun t => hlam i t) hα1pos
  have hcandpos : ∀ t, 0 < maximization E
      (calc_z E (calc_mu E ops (calc_z E (init_mu_no_log E ops alpha0) alpha0))
        (maximization E (calc_z E (init_mu_no_log E ops alpha0) alpha0))) t :=
    fun t => maximization_pos hT E _ t hW hC hz1
  have hcandsum : ∑ t, maximization E
      (calc_z E (calc_mu E ops (calc_z E (init_mu_no_log E ops alpha0) alpha0))
        (maximization E (calc_z E (init_mu_no_log E ops alpha0) alpha0))) t = 1 :=
    maximization_sum_one E _ (ne_of_gt (Finset.sum_pos
      (fun t _ => maximization_raw_pos E _ t hW hC hz1) Finset.univ_nonempty))
  have htest := test_convergence_of_distributions hT E _ _
    hα1pos hα1sum hcandpos hcandsum hcc
  obtain ⟨k, hk⟩ : ∃ k, E.num_iterations = (k + 1) + 1 :=
    ⟨E.num_iterations - 2, by omega⟩
  show (emLoop E ops alpha0 (init_mu_no_log E ops alpha0) [] 0
    E.num_iterations).2 = 1
  rw [hk, emLoop_zero_step,
    emLoop_break E ops _ _ _ 1 k one_ne_zero htest]

/-- Witness for C4 on the concrete engine `wE` (threshold 10, budget 5) with
the concrete operation pair `wOps`: the run stops at iteration index 1. -/
theorem em_convergence_policy_witness :
    (em wE wOps wRand (some wAlpha)).2 = 1 :=
  (em_convergence_policy wE wOps wRand wAlpha (by decide)
    (by with_unfolding_all decide)
    (by with_unfolding_all decide)
    (by with_unfolding_all decide)
    (by with_unfolding_all decide)
    wExp_pos wExp_strictMono wExp_zero wLog_wExp wLog_mono
    (by with_unfolding_all decide) (by with_unfolding_all decide)).2.2

end READMeth
